import Mathlib

/-!
Verification of the COBOL completion/documentation engine
(`ParagraphCompletion` and `CobolDocParser`) against its specification.

Lines of source text are modelled as `List Char`; a buffer is a
`List (List Char)`.  JavaScript string/array operations are translated
one-for-one: `trim`, `startsWith`, `includes`, single-occurrence
`replace`, `Array.toString` (comma join), and the `Map` insert-or-update
semantics of `Map.set`.  Promise-based code is modelled by explicit
result values together with the synchronous-executor/microtask ordering
of JavaScript promises (a promise settles at its first `resolve`/`reject`
call; callbacks registered with `then`/`catch` run strictly after the
executor returns).
-/

/-- JavaScript regex class `\s` (ASCII range; the COBOL sources scanned
here are ASCII). -/
def isWsChar (c : Char) : Bool :=
  c == ' ' || c == '\t' || c == '\n' || c == '\r' || c == '\x0b' || c == '\x0c'

/-- JavaScript regex class `\w`: letters, digits and underscore. -/
def isWordChar (c : Char) : Bool :=
  c.isAlphanum || c == '_'

/-- Character class `[\w\-]` used for paragraph names and doc-tag names. -/
def isNameChar (c : Char) : Bool :=
  isWordChar c || c == '-'

/-- JavaScript `String.prototype.startsWith`. -/
def jsStartsWith (pre l : List Char) : Bool :=
  decide (pre <+: l)

/-- JavaScript `String.prototype.includes` / `String.prototype.match`
with a plain-text pattern: substring containment. -/
def jsIncludes (pat l : List Char) : Bool :=
  decide (pat <:+: l)

/-- JavaScript `String.prototype.trim` (whitespace stripped from both
ends). -/
def trimChars (l : List Char) : List Char :=
  ((l.dropWhile isWsChar).reverse.dropWhile isWsChar).reverse

/-- JavaScript `String.prototype.replace` with a plain-string pattern:
replaces only the FIRST occurrence of `pat`, here always by the empty
string, and returns the input unchanged when `pat` does not occur. -/
def replaceFirst (pat : List Char) : List Char → List Char
  | [] => []
  | c :: s =>
    if pat <+: (c :: s) then (c :: s).drop pat.length
    else c :: replaceFirst pat s

/-- `CobolDocParser.removeDots`: repeatedly strips a trailing `'.'`. -/
def removeDots (l : List Char) : List Char :=
  (l.reverse.dropWhile (fun c => c == '.')).reverse

/-- `Array.prototype.toString`: elements joined with a comma.  Used by
`CobolDocParser.isRechDoc` on the documentation-line array. -/
def joinComma : List (List Char) → List Char
  | [] => []
  | [l] => l
  | l :: ls => l ++ ',' :: joinComma ls

/-- A `@param` / `@return` / `@throws` entry (`DocElement`). -/
structure DocElement where
  name : List Char
  description : List Char
deriving DecidableEq, Repr

/-- Parsed documentation (`CobolDoc`): the free-form summary plus the
three tag lists. -/
structure CobolDoc where
  comment : List Char
  params : List DocElement
  returns : List DocElement
  throws : List DocElement
deriving DecidableEq, Repr

/-- Result of executing the doc-tag regex
`\s+\*>\s+(@param|@return|@throws)\s([\w-]+)\s?(.*)?` on a line:
capture groups 1 (tag), 2 (name) and 3 (trailing description; the
group `(.*)` captures the empty string when nothing trails). -/
structure TagMatch where
  tag : List Char
  name : List Char
  group3 : List Char
deriving DecidableEq, Repr

/-- The alternatives of capture group 1, in the order the regex tries
them.  Their pairwise prefixes are incompatible (they differ at their
second character), so at any position at most one alternative can
match; a failure after the keyword therefore cannot be rescued by
another alternative, which keeps the matcher below backtracking-free. -/
def tagAlternatives : List (List Char) :=
  ["@param".toList, "@return".toList, "@throws".toList]

/-- Attempt of the doc-tag regex starting right after a recognised tag
keyword: `\s([\w-]+)\s?(.*)?`.  `\s` is a single whitespace character,
`[\w-]+` is a greedy non-empty name run, `\s?` greedily consumes one
optional whitespace and `(.*)` captures the rest of the line up to a
newline. -/
def matchAfterTag (t : List Char) (r4 : List Char) : Option TagMatch :=
  match r4 with
  | [] => none
  | c :: r5 =>
    if isWsChar c then
      let name := r5.takeWhile isNameChar
      if name = [] then none
      else
        let r6 := r5.drop name.length
        let r7 := match r6 with
          | [] => ([] : List Char)
          | c2 :: r8 => if isWsChar c2 then r8 else c2 :: r8
        some ⟨t, name, r7.takeWhile (fun c3 => decide (c3 ≠ '\n'))⟩
    else none

/-- Attempt of the doc-tag regex at one fixed start position.  `\s+`
followed by a non-whitespace literal needs no backtracking: the run of
whitespace is consumed maximally and the literal must follow. -/
def matchTagAt (l : List Char) : Option TagMatch :=
  if l.takeWhile isWsChar = [] then none
  else
    let r1 := l.dropWhile isWsChar
    if jsStartsWith "*>".toList r1 then
      let r2 := r1.drop 2
      if r2.takeWhile isWsChar = [] then none
      else
        let r3 := r2.dropWhile isWsChar
        match tagAlternatives.find? (fun t => jsStartsWith t r3) with
        | none => none
        | some t => matchAfterTag t (r3.drop t.length)
    else none

/-- `RegExp.prototype.exec` of the doc-tag regex: the match at the
leftmost start position where the whole pattern succeeds, `none` when
no position matches. -/
def execDocElement : List Char → Option TagMatch
  | [] => none
  | c :: rest =>
    match matchTagAt (c :: rest) with
    | some m => some m
    | none => execDocElement rest

/-- `CobolDocParser.createDocElementFromLine`: builds a `DocElement`
from the regex captures; group 3 is used as description when truthy
(non-empty), otherwise the description is empty; no match yields no
element. -/
def createDocElementFromLine (l : List Char) : Option DocElement :=
  match execDocElement l with
  | none => none
  | some m =>
    if m.group3 ≠ [] then some ⟨m.name, m.group3⟩
    else if m.name ≠ [] then some ⟨m.name, []⟩
    else none

/-- `CobolDocParser.updateDocElement`: appends the element created from
the line, when one is created. -/
def updateDocElement (elements : List DocElement) (l : List Char) : List DocElement :=
  match createDocElementFromLine l with
  | some e => elements ++ [e]
  | none => elements

/-- Mutable locals of `CobolDocParser.extractRechDoc`. -/
structure RechState where
  comment : List Char
  params : List DocElement
  returns : List DocElement
  throws : List DocElement
  parsingRechDoc : Bool
  extractingComment : Bool
deriving DecidableEq, Repr

/-- The tag-detection block of `extractRechDoc`: the four substring
tests (`currentLine.match(/@param/)` etc.) run in source order. -/
def rechStepTags (s : RechState) (l : List Char) : RechState :=
  let s1 :=
    if jsIncludes "@param".toList l then
      { s with params := updateDocElement s.params l, extractingComment := false }
    else s
  let s2 :=
    if jsIncludes "@return".toList l then
      { s1 with extractingComment := false, returns := updateDocElement s1.returns l }
    else s1
  let s3 :=
    if jsIncludes "@throws".toList l then
      { s2 with extractingComment := false, throws := updateDocElement s2.throws l }
    else s2
  if jsIncludes "@enum".toList l || jsIncludes "@optional".toList l
      || jsIncludes "@default".toList l || jsIncludes "@extends".toList l then
    { s3 with extractingComment := false }
  else s3

/-- The summary-accumulation block of `extractRechDoc`: when still
extracting, the line with its first `*>` removed and trimmed is
appended with a trailing space — except that for blank content the
source executes `comment.concat("\n\n")` WITHOUT assigning the result,
which leaves `comment` unchanged (JavaScript strings are immutable). -/
def rechStepComment (s : RechState) (l : List Char) : RechState :=
  if s.extractingComment then
    let cur := trimChars (replaceFirst "*>".toList l)
    if cur.length == 0 then s
    else { s with comment := s.comment ++ cur ++ [' '] }
  else s

/-- Body of the `documentation.forEach` loop of `extractRechDoc` for
one line. -/
def rechStep (s : RechState) (l : List Char) : RechState :=
  if jsStartsWith "*>/**".toList (trimChars l) then
    { s with parsingRechDoc := true, extractingComment := true }
  else
    let s' :=
      if jsStartsWith "*>*/".toList (trimChars l) then
        { s with parsingRechDoc := false }
      else s
    if s'.parsingRechDoc then rechStepComment (rechStepTags s' l) l else s'

/-- Initial state of `extractRechDoc`. -/
def rechInit : RechState :=
  ⟨[], [], [], [], false, false⟩

/-- `CobolDocParser.extractRechDoc`. -/
def extractRechDoc (documentation : List (List Char)) : CobolDoc :=
  let s := documentation.foldl rechStep rechInit
  ⟨s.comment, s.params, s.returns, s.throws⟩

/-- Body of the `documentation.forEach` loop of `extractDefaultDoc` for
one line: a line whose trimmed text starts with `*>->` has the first
`*>->` and the first `<-<*` removed, is trimmed, has trailing dots
removed and is appended to the summary with a trailing space; any other
line contributes nothing. -/
def defaultStep (comment : List Char) (l : List Char) : List Char :=
  if jsStartsWith "*>->".toList (trimChars l) then
    comment ++ removeDots (trimChars (replaceFirst "<-<*".toList (replaceFirst "*>->".toList l))) ++ [' ']
  else comment

/-- `CobolDocParser.extractDefaultDoc`. -/
def extractDefaultDoc (documentation : List (List Char)) : CobolDoc :=
  ⟨documentation.foldl defaultStep [], [], [], []⟩

/-- `CobolDocParser.isRechDoc`: `documentation.toString()` joins the
lines with commas and the result is tested for the substring `*>/**`. -/
def isRechDoc (documentation : List (List Char)) : Bool :=
  jsIncludes "*>/**".toList (joinComma documentation)

/-- `CobolDocParser.parseCobolDoc`. -/
def parseCobolDoc (documentation : List (List Char)) : CobolDoc :=
  if isRechDoc documentation then extractRechDoc documentation
  else extractDefaultDoc documentation

/-- The per-line content of the paragraph-declaration pattern
`^\s\s\s\s\s\s\s([\w\-]+)\.(?:\s*\*\>.*)?` used by
`ParagraphCompletion.generateParagraphCompletion`: exactly seven
whitespace characters, a non-empty greedy `[\w\-]+` name run, a literal
period, and arbitrary trailing text (the trailing-comment group is
optional and the pattern has no end anchor).  Returns the captured
name. -/
def matchParagraph (l : List Char) : Option (List Char) :=
  if (l.take 7).length = 7 ∧ (l.take 7).all isWsChar then
    let rest := l.drop 7
    let name := rest.takeWhile isNameChar
    if name ≠ [] ∧ (rest.drop name.length).head? = some '.' then some name
    else none
  else none

/-- Modelled from the spec: the `Scan` helper (class `commons/Scan`,
not part of the given sources) which per §4.1 produces the finite
sequence of `(line index, captured name)` occurrences of the
declaration pattern, one per matching line, in buffer order.  Also
covers `ParserCobol.getDeclaracaoParagrafo` (not part of the given
sources), which per §4.1 yields the declared name captured by the
scanner. -/
def scanParagraphs (lines : List (List Char)) : List (Nat × List Char) :=
  lines.enum.filterMap (fun p => (matchParagraph p.2).map (fun name => (p.1, name)))

/-- `ParagraphCompletion.getElementDocumentation` restricted to a line
index that is at most the buffer length (the only way it is reached
from the scanner): walking upward from `lineIndex - 1` and collecting
lines while they start with six spaces and `*>` is taking the longest
such prefix of the reversed prefix of the buffer; the collected block
is reversed back to source order. -/
def getElementDocumentationAt (lines : List (List Char)) (lineIndex : Nat) : List (List Char) :=
  (((lines.take lineIndex).reverse).takeWhile (fun l => jsStartsWith "      *>".toList l)).reverse

/-- The loop of `getElementDocumentation`, started at line index `j`
and walking down to 0, in push order (nearest line first).  Reading
`lines[j]` beyond the end of the buffer yields JavaScript `undefined`,
on which the `.startsWith` call throws a `TypeError`, modelled as
`Except.error`. -/
def getDocPush (lines : List (List Char)) : Nat → Except Unit (List (List Char))
  | 0 =>
    match lines[0]? with
    | none => .error ()
    | some l => if jsStartsWith "      *>".toList l then .ok [l] else .ok []
  | j + 1 =>
    match lines[j + 1]? with
    | none => .error ()
    | some l =>
      if jsStartsWith "      *>".toList l then
        (getDocPush lines j).map (fun r => l :: r)
      else .ok []

/-- `ParagraphCompletion.getElementDocumentation` for an arbitrary
(possibly negative or out-of-range) line index: the `for` loop from
`lineIndex - 1` down to 0 does not run at all for `lineIndex ≤ 0`, and
otherwise starts by reading `lines[lineIndex - 1]`; the collected
lines are reversed at the end. -/
def getElementDocumentation (lines : List (List Char)) (lineIndex : Int) : Except Unit (List (List Char)) :=
  if lineIndex ≤ 0 then .ok []
  else (getDocPush lines (lineIndex - 1).toNat).map List.reverse

/-- The completion record built by
`ParagraphCompletion.createParagraphCompletion`, reduced to the fields
the specification talks about: the label (the paragraph name) and the
parsed documentation that feeds `detail` and `documentation`.  The
`textEdit` range fields depend only on the request's cursor position,
which is the same for every record of one request, and are omitted. -/
structure CompletionItemModel where
  label : List Char
  doc : CobolDoc
deriving DecidableEq, Repr

/-- `ParagraphCompletion.createParagraphCompletion`. -/
def createParagraphCompletion (paragraph : List Char) (docArray : List (List Char)) : CompletionItemModel :=
  ⟨paragraph, parseCobolDoc docArray⟩

/-- JavaScript `Map.prototype.get` on an insertion-ordered entry
list. -/
def jsGet {α β : Type} [BEq α] : List (α × β) → α → Option β
  | [], _ => none
  | p :: m, k => if p.1 == k then some p.2 else jsGet m k

/-- JavaScript `Map.prototype.has`. -/
def jsHas {α β : Type} [BEq α] : List (α × β) → α → Bool
  | [], _ => false
  | p :: m, k => p.1 == k || jsHas m k

/-- JavaScript `Map.prototype.set`: when the key is already present its
value is REPLACED in place (insertion position kept); otherwise the
entry is appended. -/
def mapSet {α β : Type} [BEq α] (m : List (α × β)) (k : α) (v : β) : List (α × β) :=
  if jsHas m k then m.map (fun p => if p.1 == k then (k, v) else p)
  else m ++ [(k, v)]

/-- Key list of a map model. -/
def jsKeys {α β : Type} (m : List (α × β)) : List α :=
  m.map (fun p => p.1)

/-- The scanning loop of
`ParagraphCompletion.generateParagraphCompletion` (its `useCache=false`
behaviour): every occurrence is inserted with `items.set`, so a later
occurrence of an already-present name replaces the stored record. -/
def buildParagraphItems (lines : List (List Char)) : List (List Char × CompletionItemModel) :=
  (scanParagraphs lines).foldl
    (fun m o => mapSet m o.2 (createParagraphCompletion o.2 (getElementDocumentationAt lines o.1))) []

/-- One step of the merge loop of `generateParagraphCompletion` with
`useCache=true`: a locally-built entry is added only when its key is
not already present. -/
def mergeStep {α β : Type} [BEq α] (m : List (α × β)) (p : α × β) : List (α × β) :=
  if jsHas m p.1 then m else mapSet m p.1 p.2

/-- `ParagraphCompletion.generateParagraphCompletion lines useCache`,
where `currentLines` is the buffer in `this.currentLines` (the locally
open source).  With `useCache=true` the index over `lines` is built
first and every entry of an index built over `currentLines` (a
recursive call with `useCache=false`) whose key is absent is merged
in. -/
def generateParagraphCompletion (lines : List (List Char)) (useCache : Bool)
    (currentLines : List (List Char)) : List (List Char × CompletionItemModel) :=
  let items := buildParagraphItems lines
  if useCache then (buildParagraphItems currentLines).foldl mergeStep items
  else items

/-- The two static fields of `ParagraphCompletion`:
`ParagraphCompletion.cache` (initially `undefined`) and
`ParagraphCompletion.cacheSourceFileName`. -/
structure CacheState where
  cache : Option (List (List Char × CompletionItemModel))
  cacheSourceFileName : List Char
deriving DecidableEq, Repr

/-- Settled state of a JavaScript promise. -/
inductive PromiseResult (α : Type) where
  | resolved : α → PromiseResult α
  | rejected : PromiseResult α
deriving DecidableEq, Repr

/-- `ParagraphCompletion.loadCache`, evaluated after both external
promises have settled.  Arguments: the static cache state, the settled
value of `sourceOfCompletions`, the settled result of
`ExpandedSourceManager.getExpandedSource(this.uri)` (modelled directly
as the expanded buffer's lines; `BufferSplitter.split` is not part of
the given sources and per §6 the expanded buffer is plain text lines),
`this.currentLines` and `this.cacheFileName`.  Returns the new static
state, the settlement of the promise returned by `loadCache`, and
whether the expansion provider was invoked.  When the mode string
equals `"local"` the function stores the locally-built index and
resolves BEFORE the `getExpandedSource` call is reached; when the
provider rejects, the `catch` handler rejects without having touched
the static fields. -/
def loadCacheModel (st : CacheState) (mode : List Char)
    (providerResult : PromiseResult (List (List Char)))
    (currentLines : List (List Char)) (cacheFileName : List Char) :
    CacheState × PromiseResult Unit × Bool :=
  if mode = "local".toList then
    (⟨some (generateParagraphCompletion currentLines false currentLines), cacheFileName⟩,
      .resolved (), false)
  else
    match providerResult with
    | .resolved buffer =>
      (⟨some (generateParagraphCompletion buffer true currentLines), cacheFileName⟩,
        .resolved (), true)
    | .rejected => (st, .rejected, true)

/-- `ParagraphCompletion.generate`.  Its promise executor runs
synchronously: it stores the request buffer, STARTS `loadCache` (whose
`then`/`catch` continuations can only run after the executor returns),
then builds `items` from the static cache state AS IT WAS BEFORE the
call and calls `resolve(items)`.  A promise settles at its first
`resolve`/`reject`, so the later `reject()` inside
`loadCache().catch(...)` hits an already-resolved promise and is a
no-op: the returned promise always resolves with `items`, while the
static state is still updated (or left alone) by the `loadCache`
continuations. -/
def generateModel (st : CacheState) (mode : List Char)
    (providerResult : PromiseResult (List (List Char)))
    (lines : List (List Char)) (cacheFileName : List Char) :
    PromiseResult (List CompletionItemModel) × CacheState :=
  let items :=
    match st.cache with
    | some m =>
      if st.cacheSourceFileName = cacheFileName then m.map (fun p => p.2)
      else (generateParagraphCompletion lines false lines).map (fun p => p.2)
    | none => (generateParagraphCompletion lines false lines).map (fun p => p.2)
  (.resolved items, (loadCacheModel st mode providerResult lines cacheFileName).1)

/-- Buffer with the same paragraph name declared twice, each occurrence
preceded by a different freeform comment. -/
def demoDup : List (List Char) :=
  ["      *>-> First. <-<*".toList, "       DUP.".toList,
   "      *>-> Second. <-<*".toList, "       DUP.".toList]

/-- The scenario buffer of spec §8:
`["       PARA-A.", "      *>-> Does A. <-<*", "       PARA-B."]`. -/
def scenarioLines : List (List Char) :=
  ["       PARA-A.".toList, "      *>-> Does A. <-<*".toList, "       PARA-B.".toList]

/-- A cache state holding a previously built entry for file identity
`F.cbl`. -/
def c2PriorState : CacheState :=
  ⟨some [("FOO".toList, createParagraphCompletion "FOO".toList [])], "F.cbl".toList⟩

/-- Expanded buffer used to exercise the merge: declares `K-ONE` with
expansion-side documentation. -/
def expWit : List (List Char) :=
  ["      *>-> Exp. <-<*".toList, "       K-ONE.".toList]

/-- Local buffer used to exercise the merge: declares `K-ONE` with
different documentation, plus the local-only `K-TWO`. -/
def locWit : List (List Char) :=
  ["      *>-> Loc. <-<*".toList, "       K-ONE.".toList, "       K-TWO.".toList]

/-- A line containing one of the three record-producing tag tokens as a
substring (the tests `currentLine.match(/@param/)` etc. of
`extractRechDoc`). -/
def isTagSubstringLine (l : List Char) : Bool :=
  jsIncludes "@param".toList l || jsIncludes "@return".toList l || jsIncludes "@throws".toList l

/-- A line containing any of the seven tag tokens recognised inside a
structured documentation block. -/
def containsTagToken (l : List Char) : Bool :=
  isTagSubstringLine l || jsIncludes "@enum".toList l || jsIncludes "@optional".toList l
    || jsIncludes "@default".toList l || jsIncludes "@extends".toList l

section MapLemmas

variable {α β : Type} [BEq α] [LawfulBEq α]

theorem jsGet_eq_none_of_jsHas_false {m : List (α × β)} {k : α}
    (h : jsHas m k = false) : jsGet m k = none := by
  induction m with
  | nil => rfl
  | cons p m ih =>
    simp only [jsHas, Bool.or_eq_false_iff] at h
    simp [jsGet, h.1, ih h.2]

theorem jsGet_append_of_jsHas_false {m₁ : List (α × β)} (m₂ : List (α × β)) {k : α}
    (h : jsHas m₁ k = false) : jsGet (m₁ ++ m₂) k = jsGet m₂ k := by
  induction m₁ with
  | nil => rfl
  | cons p m ih =>
    simp only [jsHas, Bool.or_eq_false_iff] at h
    simpa [jsGet, h.1] using ih h.2

theorem jsGet_map_upd_self {m : List (α × β)} {k : α} (v : β)
    (h : jsHas m k = true) :
    jsGet (m.map (fun p => if p.1 == k then (k, v) else p)) k = some v := by
  induction m with
  | nil => simp [jsHas] at h
  | cons p m ih =>
    by_cases hp : (p.1 == k) = true
    · simp [jsGet, hp]
    · simp only [Bool.not_eq_true] at hp
      simp only [jsHas, hp, Bool.false_or] at h
      simp only [List.map_cons, hp, Bool.false_eq_true, if_false, jsGet, ih h]

theorem jsGet_mapSet_self (m : List (α × β)) (k : α) (v : β) :
    jsGet (mapSet m k v) k = some v := by
  unfold mapSet
  by_cases h : jsHas m k = true
  · simp [h, jsGet_map_upd_self v h]
  · have h' : jsHas m k = false := by simpa using h
    simp [h', jsGet_append_of_jsHas_false _ h', jsGet]

theorem jsGet_map_upd_ne {m : List (α × β)} {k k' : α} (v : β) (h : k ≠ k') :
    jsGet (m.map (fun p => if p.1 == k then (k, v) else p)) k' = jsGet m k' := by
  induction m with
  | nil => rfl
  | cons p m ih =>
    by_cases hp : (p.1 == k) = true
    · have hpk : p.1 = k := by simpa using hp
      have hkk : (k == k') = false := by simpa using h
      simp [jsGet, hp, hpk, hkk, ih]
    · simp only [Bool.not_eq_true] at hp
      simp only [List.map_cons, hp, Bool.false_eq_true, if_false, jsGet, ih]

theorem jsGet_append_single_ne (m : List (α × β)) {k k' : α} (v : β) (h : k ≠ k') :
    jsGet (m ++ [(k, v)]) k' = jsGet m k' := by
  have h' : (k == k') = false := by simpa using h
  induction m with
  | nil => simp [jsGet, h']
  | cons p m ih => simp [jsGet, ih]

theorem jsGet_mapSet_ne (m : List (α × β)) {k k' : α} (v : β) (h : k ≠ k') :
    jsGet (mapSet m k v) k' = jsGet m k' := by
  unfold mapSet
  by_cases hh : jsHas m k = true
  · simp [hh, jsGet_map_upd_ne v h]
  · simp [hh, jsGet_append_single_ne m v h]

theorem jsHas_map_upd (m : List (α × β)) (k k' : α) (v : β) :
    jsHas (m.map (fun p => if p.1 == k then (k, v) else p)) k' = jsHas m k' := by
  induction m with
  | nil => rfl
  | cons p m ih =>
    by_cases hp : (p.1 == k) = true
    · have hpk : p.1 = k := by simpa using hp
      simp [jsHas, hp, hpk, ih]
    · simp only [Bool.not_eq_true] at hp
      simp [jsHas, hp, ih]

theorem jsHas_append (m₁ m₂ : List (α × β)) (k : α) :
    jsHas (m₁ ++ m₂) k = (jsHas m₁ k || jsHas m₂ k) := by
  induction m₁ with
  | nil => simp [jsHas]
  | cons p m ih => simp [jsHas, ih, Bool.or_assoc]

theorem jsHas_mapSet_self (m : List (α × β)) (k : α) (v : β) :
    jsHas (mapSet m k v) k = true := by
  unfold mapSet
  by_cases h : jsHas m k = true
  · simp [h, jsHas_map_upd]
  · simp [h, jsHas_append, jsHas]

theorem jsHas_mapSet_ne (m : List (α × β)) {k k' : α} (v : β) (h : k ≠ k') :
    jsHas (mapSet m k v) k' = jsHas m k' := by
  unfold mapSet
  by_cases hh : jsHas m k = true
  · simp [hh, jsHas_map_upd]
  · have h' : (k == k') = false := by simpa using h
    simp [hh, jsHas_append, jsHas, h']

end MapLemmas

section MapFoldLemmas

variable {α β : Type} [BEq α] [LawfulBEq α]

theorem jsGet_foldl_mapSet {γ : Type} (key : γ → α) (val : γ → β)
    (xs : List γ) (init : List (α × β)) (k : α) :
    jsGet (xs.foldl (fun m x => mapSet m (key x) (val x)) init) k =
      ((xs.filter (fun x => key x == k)).getLast?.map val).or (jsGet init k) := by
  induction xs generalizing init with
  | nil => simp
  | cons x xs ih =>
    simp only [List.foldl_cons, List.filter_cons]
    by_cases hx : (key x == k) = true
    · have hxk : key x = k := by simpa using hx
      simp only [hx, if_true]
      rw [ih]
      rcases hfl : xs.filter (fun y => key y == k) with _ | ⟨y, ys⟩
      · simp [hxk, jsGet_mapSet_self]
      · rcases hgl : (y :: ys).getLast? with _ | z
        · rw [List.getLast?_eq_none_iff] at hgl
          exact absurd hgl (by simp)
        · simp [List.getLast?_cons_cons, hgl]
    · simp only [Bool.not_eq_true] at hx
      have hxk : key x ≠ k := by simpa using hx
      simp only [hx, Bool.false_eq_true, if_false]
      rw [ih, jsGet_mapSet_ne init (val x) hxk]

theorem jsKeys_map_upd (m : List (α × β)) (k : α) (v : β) :
    jsKeys (m.map (fun p => if p.1 == k then (k, v) else p)) = jsKeys m := by
  induction m with
  | nil => rfl
  | cons p m ih =>
    by_cases hp : (p.1 == k) = true
    · have hpk : p.1 = k := by simpa using hp
      simp [jsKeys, hp, hpk] at ih ⊢
      simpa [jsKeys] using ih
    · simp only [Bool.not_eq_true] at hp
      simp [jsKeys, hp] at ih ⊢
      simpa [jsKeys] using ih

theorem jsKeys_mapSet (m : List (α × β)) (k : α) (v : β) :
    jsKeys (mapSet m k v) = if jsHas m k then jsKeys m else jsKeys m ++ [k] := by
  unfold mapSet
  by_cases h : jsHas m k = true
  · simp [h, jsKeys_map_upd]
  · simp [h, jsKeys]

theorem jsHas_eq_false_iff_not_mem {m : List (α × β)} {k : α} :
    jsHas m k = false ↔ k ∉ jsKeys m := by
  induction m with
  | nil => simp [jsHas, jsKeys]
  | cons p m ih =>
    simp only [jsHas, Bool.or_eq_false_iff, beq_eq_false_iff_ne, jsKeys, List.map_cons,
      List.mem_cons, ih]
    constructor
    · rintro ⟨h1, h2⟩ h
      rcases h with h | h
      · exact h1 h.symm
      · exact h2 h
    · intro h
      exact ⟨fun he => h (Or.inl he.symm), fun hm => h (Or.inr hm)⟩

theorem jsKeys_nodup_mapSet (m : List (α × β)) (k : α) (v : β)
    (h : (jsKeys m).Nodup) : (jsKeys (mapSet m k v)).Nodup := by
  rw [jsKeys_mapSet]
  by_cases hh : jsHas m k = true
  · simpa [hh] using h
  · have hk : k ∉ jsKeys m := jsHas_eq_false_iff_not_mem.mp (by simpa using hh)
    simp [hh, List.nodup_append, h, hk]

theorem jsKeys_nodup_foldl_mapSet {γ : Type} (key : γ → α) (val : γ → β)
    (xs : List γ) (init : List (α × β)) (h : (jsKeys init).Nodup) :
    (jsKeys (xs.foldl (fun m x => mapSet m (key x) (val x)) init)).Nodup := by
  induction xs generalizing init with
  | nil => exact h
  | cons x xs ih => exact ih _ (jsKeys_nodup_mapSet _ _ _ h)

theorem jsGet_foldl_mergeStep_of_has (L : List (α × β)) {E : List (α × β)} {k : α}
    (h : jsHas E k = true) : jsGet (L.foldl mergeStep E) k = jsGet E k := by
  induction L generalizing E with
  | nil => rfl
  | cons p L ih =>
    rw [List.foldl_cons]
    by_cases hp : jsHas E p.1 = true
    · rw [show mergeStep E p = E from by simp [mergeStep, hp]]
      exact ih h
    · have hne : p.1 ≠ k := by
        intro he
        rw [he] at hp
        exact hp h
      rw [show mergeStep E p = mapSet E p.1 p.2 from by simp [mergeStep, hp]]
      rw [ih (by rw [jsHas_mapSet_ne E p.2 hne]; exact h)]
      exact jsGet_mapSet_ne E p.2 hne

theorem jsGet_foldl_mergeStep_of_not_has (L : List (α × β)) {E : List (α × β)} {k : α}
    (h : jsHas E k = false) : jsGet (L.foldl mergeStep E) k = jsGet L k := by
  induction L generalizing E with
  | nil => simpa [jsGet] using jsGet_eq_none_of_jsHas_false h
  | cons p L ih =>
    rw [List.foldl_cons]
    by_cases hpk : (p.1 == k) = true
    · have hpk' : p.1 = k := by simpa using hpk
      have hE : jsHas E p.1 = false := by rwa [hpk']
      rw [show mergeStep E p = mapSet E p.1 p.2 from by simp [mergeStep, hE]]
      rw [jsGet_foldl_mergeStep_of_has L (by rw [hpk']; exact jsHas_mapSet_self E k p.2)]
      rw [hpk', jsGet_mapSet_self]
      simp [jsGet, hpk]
    · simp only [Bool.not_eq_true] at hpk
      have hne : p.1 ≠ k := by simpa using hpk
      by_cases hp : jsHas E p.1 = true
      · rw [show mergeStep E p = E from by simp [mergeStep, hp]]
        rw [ih h]
        simp [jsGet, hpk]
      · rw [show mergeStep E p = mapSet E p.1 p.2 from by simp [mergeStep, hp]]
        rw [ih (by rw [jsHas_mapSet_ne E p.2 hne]; exact h)]
        simp [jsGet, hpk]

end MapFoldLemmas

/-- C1 counterexample: in `demoDup` the name `DUP` is declared at rows 1
and 3 with different comment blocks; the index built by
`generateParagraphCompletion` with `useCache=false` maps `DUP` to the
record of the SECOND occurrence (summary `Second `), not to the record
of the first occurrence (summary `First `), refuting first-wins. -/
theorem claim1_counterexample :
    jsGet (generateParagraphCompletion demoDup false demoDup) "DUP".toList =
      some (createParagraphCompletion "DUP".toList (getElementDocumentationAt demoDup 3))
    ∧ (createParagraphCompletion "DUP".toList (getElementDocumentationAt demoDup 3)).doc.comment
        = "Second ".toList
    ∧ (createParagraphCompletion "DUP".toList (getElementDocumentationAt demoDup 1)).doc.comment
        = "First ".toList
    ∧ (scanParagraphs demoDup).map (fun o => o.1) = [1, 3]
    ∧ "Second ".toList ≠ "First ".toList :=
  ⟨by rfl, by rfl, by rfl, by rfl, by decide⟩

/-- C1 (amended): duplicate declaration names within one buffer are
resolved LAST-wins: the builder maps every scanned name to the record
built from its latest occurrence's comment block (`Map.set` replaces
the stored value), later occurrences silently replacing earlier ones,
and the key set of the returned index has no duplicates. -/
theorem claim1_last_wins (lines cur : List (List Char)) (name : List Char) :
    jsGet (generateParagraphCompletion lines false cur) name =
      ((scanParagraphs lines).filter (fun o => o.2 == name)).getLast?.map
        (fun o => createParagraphCompletion o.2 (getElementDocumentationAt lines o.1))
    ∧ (jsKeys (generateParagraphCompletion lines false cur)).Nodup := by
  constructor
  · have h := jsGet_foldl_mapSet (fun o : Nat × List Char => o.2)
      (fun o => createParagraphCompletion o.2 (getElementDocumentationAt lines o.1))
      (scanParagraphs lines) [] name
    simpa [generateParagraphCompletion, buildParagraphItems, jsGet] using h
  · have h := jsKeys_nodup_foldl_mapSet (fun o : Nat × List Char => o.2)
      (fun o => createParagraphCompletion o.2 (getElementDocumentationAt lines o.1))
      (scanParagraphs lines) [] (by simp [jsKeys])
    simpa [generateParagraphCompletion, buildParagraphItems] using h

/-- C2: with a prior cache entry for the same file identity, an
expansion mode other than `local` and a REJECTING expansion provider,
the promise returned by `ParagraphCompletion.generate` nevertheless
RESOLVES (with the items of the pre-existing cache entry): the claim
that it rejects fails, because `resolve(items)` runs synchronously in
the executor while the `reject()` in `loadCache().catch(...)` only
fires afterwards against the already-settled promise.  The remainder of
the claim holds: the static cache state is completely untouched, so the
prior entry is still readable, unchanged. -/
theorem claim2_code_bug :
    (generateModel c2PriorState "expanded".toList PromiseResult.rejected [] "F.cbl".toList).1 =
      PromiseResult.resolved [createParagraphCompletion "FOO".toList []]
    ∧ (generateModel c2PriorState "expanded".toList PromiseResult.rejected [] "F.cbl".toList).1 ≠
      PromiseResult.rejected
    ∧ (generateModel c2PriorState "expanded".toList PromiseResult.rejected [] "F.cbl".toList).2 =
      c2PriorState :=
  ⟨by rfl, by decide, by rfl⟩

/-- C3: merge precedence on successful expansion.  For the index built
over the expanded buffer (`E := buildParagraphItems expLines`) and the
index built over the local buffer (`L := buildParagraphItems
curLines`), the merged result of `generateParagraphCompletion` with
`useCache=true` returns E's record for every key present in E (local
records never override expansion-derived ones) and L's record for
every key absent from E. -/
theorem claim3_merge_precedence (expLines curLines : List (List Char)) (k : List Char) :
    (jsHas (buildParagraphItems expLines) k = true →
      jsGet (generateParagraphCompletion expLines true curLines) k =
        jsGet (buildParagraphItems expLines) k)
    ∧ (jsHas (buildParagraphItems expLines) k = false →
      jsGet (generateParagraphCompletion expLines true curLines) k =
        jsGet (buildParagraphItems curLines) k) := by
  constructor
  · intro h
    show jsGet ((buildParagraphItems curLines).foldl mergeStep (buildParagraphItems expLines)) k
      = _
    exact jsGet_foldl_mergeStep_of_has _ h
  · intro h
    show jsGet ((buildParagraphItems curLines).foldl mergeStep (buildParagraphItems expLines)) k
      = _
    exact jsGet_foldl_mergeStep_of_not_has _ h

/-- Witness for C3: in `expWit`/`locWit` the key `K-ONE` is present in
both indexes (with different documentation) and `K-TWO` only locally;
the merged index keeps the expansion record for `K-ONE` and adds the
local record for `K-TWO`. -/
theorem claim3_witness :
    jsGet (generateParagraphCompletion expWit true locWit) "K-ONE".toList =
      jsGet (buildParagraphItems expWit) "K-ONE".toList
    ∧ jsGet (generateParagraphCompletion expWit true locWit) "K-TWO".toList =
      jsGet (buildParagraphItems locWit) "K-TWO".toList :=
  ⟨(claim3_merge_precedence expWit locWit "K-ONE".toList).1 (by decide),
   (claim3_merge_precedence expWit locWit "K-TWO".toList).2 (by decide)⟩

/-- C4: when the expansion-mode promise resolves to the sentinel
`"local"`, `loadCache` builds the index from the local buffer, caches
it under the request's file identity and resolves, and the expansion
provider is never invoked — whatever the provider's result would have
been (the returned flag is `false` for EVERY `provRes`). -/
theorem claim4_local_mode (st : CacheState) (provRes : PromiseResult (List (List Char)))
    (cur : List (List Char)) (f : List Char) :
    loadCacheModel st "local".toList provRes cur f =
      (⟨some (generateParagraphCompletion cur false cur), f⟩, PromiseResult.resolved (), false) := by
  simp [loadCacheModel]

theorem prefix_append_cons_of_not_mem {P a b : List Char} {c : Char}
    (h : P <+: a ++ c :: b) (hc : c ∉ P) : P <+: a := by
  induction a generalizing P with
  | nil =>
    rcases List.prefix_cons_iff.mp h with h0 | ⟨t, ht, _⟩
    · simp [h0]
    · exact absurd (ht ▸ List.mem_cons_self c t) hc
  | cons x a' ih =>
    rcases List.prefix_cons_iff.mp h with h0 | ⟨t, ht, htp⟩
    · simp [h0]
    · have ht' : t <+: a' := ih htp (fun hm => hc (ht ▸ List.mem_cons_of_mem x hm))
      rw [ht]
      exact List.cons_prefix_cons.mpr ⟨rfl, ht'⟩

theorem infix_append_cons_of_not_mem {P a b : List Char} {c : Char}
    (h : P <:+: a ++ c :: b) (hc : c ∉ P) : P <:+: a ∨ P <:+: b := by
  induction a with
  | nil =>
    simp only [List.nil_append] at h
    rcases List.infix_cons_iff.mp h with hp | hi
    · rcases List.prefix_cons_iff.mp hp with h0 | ⟨t, ht, _⟩
      · exact Or.inl (by simp [h0])
      · exact absurd (ht ▸ List.mem_cons_self c t) hc
    · exact Or.inr hi
  | cons x a' ih =>
    rcases List.infix_cons_iff.mp h with hp | hi
    · exact Or.inl (prefix_append_cons_of_not_mem hp hc).isInfix
    · rcases ih hi with h1 | h2
      · exact Or.inl (List.infix_cons h1)
      · exact Or.inr h2

theorem joinComma_cons_cons (l l' : List Char) (ls : List (List Char)) :
    joinComma (l :: l' :: ls) = l ++ ',' :: joinComma (l' :: ls) := rfl

theorem infix_joinComma_iff {P : List Char} (doc : List (List Char))
    (hne : P ≠ []) (hc : ',' ∉ P) :
    P <:+: joinComma doc ↔ ∃ l ∈ doc, P <:+: l := by
  induction doc with
  | nil =>
    constructor
    · intro h
      rw [joinComma, List.infix_nil] at h
      exact absurd h hne
    · rintro ⟨l, hl, _⟩
      exact absurd hl (List.not_mem_nil l)
  | cons l ls ih =>
    cases ls with
    | nil => simp [joinComma]
    | cons l' ls' =>
      rw [joinComma_cons_cons]
      constructor
      · intro h
        rcases infix_append_cons_of_not_mem h hc with h1 | h2
        · exact ⟨l, by simp, h1⟩
        · rcases ih.mp h2 with ⟨x, hx, hxi⟩
          exact ⟨x, List.mem_cons_of_mem l hx, hxi⟩
      · rintro ⟨x, hx, hxi⟩
        rcases List.mem_cons.mp hx with rfl | hx'
        · exact hxi.trans ⟨[], _, rfl⟩
        · exact (ih.mpr ⟨x, hx', hxi⟩).trans ⟨l ++ [','], [], by simp⟩

/-- C5: dialect classification is binary and the structured dialect
dominates.  `isRechDoc` holds exactly when some line of the block
contains the opener `*>/**` (the comma inserted by `Array.toString`
cannot occur inside the comma-free opener, so the joined test is
equivalent to a per-line test); when it holds `parseCobolDoc` runs
exactly `extractRechDoc` — whatever freeform `*>->` markers are also
present — and otherwise exactly `extractDefaultDoc`. -/
theorem claim5_dialect (doc : List (List Char)) :
    (isRechDoc doc = true ↔ ∃ l ∈ doc, "*>/**".toList <:+: l)
    ∧ ((∃ l ∈ doc, "*>/**".toList <:+: l) → parseCobolDoc doc = extractRechDoc doc)
    ∧ ((∀ l ∈ doc, ¬ ("*>/**".toList <:+: l)) → parseCobolDoc doc = extractDefaultDoc doc) := by
  have hiff : isRechDoc doc = true ↔ ∃ l ∈ doc, "*>/**".toList <:+: l := by
    unfold isRechDoc jsIncludes
    rw [decide_eq_true_eq]
    exact infix_joinComma_iff doc (by decide) (by decide)
  refine ⟨hiff, ?_, ?_⟩
  · intro h
    unfold parseCobolDoc
    rw [if_pos (hiff.mpr h)]
  · intro h
    unfold parseCobolDoc
    rw [if_neg (fun hcon => by
      rcases hiff.mp hcon with ⟨l, hl, hi⟩
      exact h l hl hi)]

/-- Witness for C5: a block whose first line carries the structured
opener and whose second line carries a freeform `*>->` marker is parsed
via the structured path regardless of that marker, while a block with
the freeform marker only goes to the freeform path. -/
theorem claim5_witness :
    parseCobolDoc ["      *>/**".toList, "      *>-> X <-<*".toList] =
      extractRechDoc ["      *>/**".toList, "      *>-> X <-<*".toList]
    ∧ parseCobolDoc ["      *>-> X <-<*".toList] =
      extractDefaultDoc ["      *>-> X <-<*".toList] :=
  ⟨(claim5_dialect _).2.1 ⟨"      *>/**".toList, by simp, by decide⟩,
   (claim5_dialect _).2.2 (by decide)⟩

theorem getDocPush_ok (lines : List (List Char)) :
    ∀ j, j < lines.length → getDocPush lines j =
      .ok (((lines.take (j + 1)).reverse).takeWhile (fun l => jsStartsWith "      *>".toList l)) := by
  intro j
  induction j with
  | zero =>
    intro hj
    have h0 : lines[0]? = some lines[0] := List.getElem?_eq_getElem hj
    have ht : lines.take 1 = [lines[0]] := by
      rw [List.take_succ, h0]
      rfl
    rw [getDocPush]
    simp only [h0]
    rw [ht, List.reverse_singleton, List.takeWhile_cons]
    by_cases hp : jsStartsWith "      *>".toList lines[0] = true
    · rw [if_pos hp, if_pos hp]
      rfl
    · rw [if_neg hp, if_neg hp]
  | succ j ih =>
    intro hj
    have h0 : lines[j + 1]? = some lines[j + 1] := List.getElem?_eq_getElem hj
    have ht : lines.take (j + 2) = lines.take (j + 1) ++ [lines[j + 1]] := by
      rw [List.take_succ, h0]
      rfl
    have hrev : (lines.take (j + 2)).reverse = lines[j + 1] :: (lines.take (j + 1)).reverse := by
      rw [ht]
      simp
    rw [getDocPush]
    simp only [h0]
    rw [hrev, List.takeWhile_cons]
    by_cases hp : jsStartsWith "      *>".toList lines[j + 1] = true
    · rw [if_pos hp, if_pos hp, ih (Nat.lt_of_succ_lt hj)]
      rfl
    · rw [if_neg hp, if_neg hp]

theorem getDocPush_err (lines : List (List Char)) :
    ∀ j, lines.length ≤ j → getDocPush lines j = .error () := by
  intro j hj
  have h0 : lines[j]? = none := List.getElem?_eq_none hj
  cases j with
  | zero => rw [getDocPush, h0]
  | succ j => rw [getDocPush, h0]

/-- C6 counterexample: on the one-line buffer `["      *>x"]` (its only
line a comment line), the line index 1 — "at the buffer's length",
which the claim covers — yields the NON-empty block `["      *>x"]`,
and the line index 2 — beyond the length — raises a `TypeError`
(`lines[1]` is `undefined` and `.startsWith` is called on it) instead
of yielding an empty block. -/
theorem claim6_counterexample :
    getElementDocumentation ["      *>x".toList] 1 = Except.ok ["      *>x".toList]
    ∧ ["      *>x".toList] ≠ ([] : List (List Char))
    ∧ getElementDocumentation ["      *>x".toList] 2 = Except.error () :=
  ⟨by rfl, by decide, by rfl⟩

/-- C6 (amended): a declaration line index that is zero or negative
yields an empty block without error; an index between 1 and the buffer
length (inclusive — including the boundary index equal to the length)
yields, without error, the comment block ending immediately above that
index; an index strictly greater than the buffer length raises a
`TypeError` (modelled as `Except.error`). -/
theorem claim6_boundary (lines : List (List Char)) (i : Int) :
    (i ≤ 0 → getElementDocumentation lines i = .ok [])
    ∧ (0 < i → i ≤ (lines.length : Int) → getElementDocumentation lines i =
        .ok (getElementDocumentationAt lines i.toNat))
    ∧ ((lines.length : Int) < i → getElementDocumentation lines i = .error ()) := by
  refine ⟨?_, ?_, ?_⟩
  · intro h
    simp [getElementDocumentation, h]
  · intro h0 hlen
    have hnot : ¬ i ≤ 0 := by omega
    have hj : (i - 1).toNat < lines.length := by omega
    rw [getElementDocumentation, if_neg hnot, getDocPush_ok lines _ hj]
    have hsucc : (i - 1).toNat + 1 = i.toNat := by omega
    rw [hsucc]
    rfl
  · intro h
    have hnot : ¬ i ≤ 0 := by omega
    have hj : lines.length ≤ (i - 1).toNat := by omega
    rw [getElementDocumentation, if_neg hnot, getDocPush_err lines _ hj]
    rfl

/-- Witness for C6 (amended): the boundary behaviours at indices 0, 1
(= buffer length) and 2 (> buffer length) on a one-line buffer. -/
theorem claim6_witness :
    getElementDocumentation ["      *>x".toList] 0 = Except.ok []
    ∧ getElementDocumentation ["      *>x".toList] 1 =
        Except.ok (getElementDocumentationAt ["      *>x".toList] (1 : Int).toNat)
    ∧ getElementDocumentation ["      *>x".toList] 2 = Except.error () :=
  ⟨(claim6_boundary ["      *>x".toList] 0).1 (by decide),
   (claim6_boundary ["      *>x".toList] 1).2.1 (by decide) (by decide),
   (claim6_boundary ["      *>x".toList] 2).2.2 (by decide)⟩

theorem head?_dropWhile_false {p : Char → Bool} (xs : List Char) (a : Char)
    (h : (xs.dropWhile p).head? = some a) : p a = false := by
  induction xs with
  | nil => simp [List.dropWhile] at h
  | cons x xs ih =>
    rw [List.dropWhile_cons] at h
    by_cases hp : p x = true
    · rw [if_pos hp] at h
      exact ih h
    · rw [if_neg hp] at h
      simp only [List.head?_cons, Option.some.injEq] at h
      rw [← h]
      simpa using hp

/-- C7 counterexample: on the scenario buffer
`["       PARA-A.", "      *>-> Does A. <-<*", "       PARA-B."]` the
built index gives `PARA-A` the EMPTY summary (its comment block — the
lines above line 0 — is empty) and gives `PARA-B` the summary
`Does A ` (the comment block extractor walks UPWARD, so the comment on
line 1 attaches to the declaration below it); the claim has the two
attributions swapped. -/
theorem claim7_counterexample :
    (jsGet (generateParagraphCompletion scenarioLines false scenarioLines) "PARA-A".toList).map
        (fun it => it.doc.comment) = some []
    ∧ (jsGet (generateParagraphCompletion scenarioLines false scenarioLines) "PARA-B".toList).map
        (fun it => it.doc.comment) = some "Does A ".toList
    ∧ "Does A ".toList ≠ ([] : List Char) :=
  ⟨by rfl, by rfl, by decide⟩

/-- C7 (amended): freeform-dialect parsing works per line exactly as
claimed — a line beginning (after trimming) with `*>->` has the first
`*>->` and the first `<-<*` stripped, trailing periods repeatedly
removed (so the summary fragment never ends in a period), and the
remainder appended to the summary followed by a single space, while
other lines contribute nothing — but in the scenario buffer the
attributions are the reverse of the claim: `PARA-A`'s block is empty,
giving the empty summary, and `PARA-B`'s summary is `Does A `
(`Does A` modulo the caller-trimmed trailing space). -/
theorem claim7_freeform (c l : List Char) :
    (jsStartsWith "*>->".toList (trimChars l) = false → defaultStep c l = c)
    ∧ (jsStartsWith "*>->".toList (trimChars l) = true →
        defaultStep c l =
          c ++ removeDots (trimChars (replaceFirst "<-<*".toList (replaceFirst "*>->".toList l)))
            ++ [' '])
    ∧ (removeDots l).getLast? ≠ some '.'
    ∧ (jsGet (generateParagraphCompletion scenarioLines false scenarioLines) "PARA-A".toList).map
        (fun it => it.doc.comment) = some []
    ∧ (jsGet (generateParagraphCompletion scenarioLines false scenarioLines) "PARA-B".toList).map
        (fun it => it.doc.comment) = some "Does A ".toList := by
  refine ⟨?_, ?_, ?_, by rfl, by rfl⟩
  · intro h
    unfold defaultStep
    rw [h]
    simp
  · intro h
    unfold defaultStep
    rw [h]
    simp
  · intro hcon
    unfold removeDots at hcon
    rw [List.getLast?_reverse] at hcon
    have := head?_dropWhile_false _ _ hcon
    simp at this

/-- Witness for C7 (amended): the scenario buffer's two kinds of lines,
processed by the freeform step. -/
theorem claim7_witness :
    defaultStep [] "       PARA-A.".toList = []
    ∧ defaultStep [] "      *>-> Does A. <-<*".toList = "Does A ".toList := by
  constructor
  · exact (claim7_freeform [] "       PARA-A.".toList).1 (by decide)
  · rw [(claim7_freeform [] "      *>-> Does A. <-<*".toList).2.1 (by decide)]
    rfl

theorem trimChars_eq_nil_all_ws {r : List Char} (h : trimChars r = []) :
    ∀ c ∈ r, isWsChar c = true := by
  unfold trimChars at h
  rw [List.reverse_eq_nil_iff, List.dropWhile_eq_nil_iff] at h
  intro c hc
  have hsplit : c ∈ r.takeWhile isWsChar ++ r.dropWhile isWsChar := by
    rw [List.takeWhile_append_dropWhile]
    exact hc
  rcases List.mem_append.mp hsplit with h1 | h2
  · exact List.mem_takeWhile_imp h1
  · exact h _ (List.mem_reverse.mpr h2)

theorem replaceFirst_shape (pat : List Char) (l : List Char) :
    replaceFirst pat l = l
    ∨ ∃ u v, l = u ++ pat ++ v ∧ replaceFirst pat l = u ++ v := by
  induction l with
  | nil => exact Or.inl rfl
  | cons c s ih =>
    by_cases hp : pat <+: (c :: s)
    · obtain ⟨t, htt⟩ := hp
      right
      refine ⟨[], t, by rw [← htt]; rfl, ?_⟩
      rw [replaceFirst, if_pos ⟨t, htt⟩, ← htt, List.nil_append]
      exact List.drop_left pat t
    · rcases ih with h1 | ⟨u, v, heq, hrep⟩
      · left
        rw [replaceFirst, if_neg hp, h1]
      · right
        refine ⟨c :: u, v, by rw [heq]; rfl, ?_⟩
        rw [replaceFirst, if_neg hp, hrep]
        rfl

theorem mem_of_mem_trimChars {c : Char} {l : List Char} (h : c ∈ trimChars l) : c ∈ l := by
  unfold trimChars at h
  rw [List.mem_reverse] at h
  have h1 := (List.dropWhile_suffix isWsChar).subset h
  rw [List.mem_reverse] at h1
  exact (List.dropWhile_suffix isWsChar).subset h1

theorem blank_line_chars {l : List Char}
    (h : trimChars (replaceFirst "*>".toList l) = []) :
    ∀ c ∈ l, isWsChar c = true ∨ c = '*' ∨ c = '>' := by
  rcases replaceFirst_shape "*>".toList l with h1 | ⟨u, v, heq, hrep⟩
  · rw [h1] at h
    exact fun c hc => Or.inl (trimChars_eq_nil_all_ws h c hc)
  · rw [hrep] at h
    have hws := trimChars_eq_nil_all_ws h
    intro c hc
    rw [heq] at hc
    rcases List.mem_append.mp hc with h2 | h3
    · rcases List.mem_append.mp h2 with h4 | h5
      · exact Or.inl (hws c (List.mem_append.mpr (Or.inl h4)))
      · exact Or.inr (by simpa using h5)
    · exact Or.inl (hws c (List.mem_append.mpr (Or.inr h3)))

theorem rechStep_blank (s : RechState) (l : List Char)
    (h : trimChars (replaceFirst "*>".toList l) = []) : rechStep s l = s := by
  have hmem := blank_line_chars h
  have hslash : '/' ∉ l := by
    intro hm
    rcases hmem '/' hm with h1 | h1 | h1 <;> exact absurd h1 (by decide)
  have hat : '@' ∉ l := by
    intro hm
    rcases hmem '@' hm with h1 | h1 | h1 <;> exact absurd h1 (by decide)
  have hop : jsStartsWith "*>/**".toList (trimChars l) = false := by
    simp only [jsStartsWith, decide_eq_false_iff_not]
    intro hpre
    exact hslash (mem_of_mem_trimChars (hpre.subset (by decide)))
  have hcl : jsStartsWith "*>*/".toList (trimChars l) = false := by
    simp only [jsStartsWith, decide_eq_false_iff_not]
    intro hpre
    exact hslash (mem_of_mem_trimChars (hpre.subset (by decide)))
  have htag : ∀ pat : List Char, '@' ∈ pat → jsIncludes pat l = false := by
    intro pat hin
    simp only [jsIncludes, decide_eq_false_iff_not]
    intro hinf
    exact hat (hinf.subset hin)
  have htags : rechStepTags s l = s := by
    unfold rechStepTags
    rw [htag "@param".toList (by decide), htag "@return".toList (by decide),
      htag "@throws".toList (by decide), htag "@enum".toList (by decide),
      htag "@optional".toList (by decide), htag "@default".toList (by decide),
      htag "@extends".toList (by decide)]
    simp
  have hcom : rechStepComment s l = s := by
    unfold rechStepComment
    rw [h]
    by_cases he : s.extractingComment = true
    · simp [he]
    · simp only [Bool.not_eq_true] at he
      simp [he]
  unfold rechStep
  rw [hop, hcl]
  by_cases hpar : s.parsingRechDoc = true
  · simp only [Bool.false_eq_true, if_false, hpar, if_true, htags, hcom]
  · simp only [Bool.not_eq_true] at hpar
    simp [hpar]

/-- C8: a line of a structured documentation block whose content after
stripping the comment marker is all-blank changes NOTHING: the
accumulated summary is left exactly unchanged (the source's
`comment.concat("\n\n")` discards its result), the parameter, return
and throws lists are untouched (a blank line cannot carry a tag
token), and even the two state flags keep their values, so deleting
the blank line from the block gives the identical parse. -/
theorem claim8_blank_lines (s : RechState) (l : List Char) (pre post : List (List Char))
    (h : trimChars (replaceFirst "*>".toList l) = []) :
    rechStep s l = s
    ∧ extractRechDoc (pre ++ l :: post) = extractRechDoc (pre ++ post) := by
  refine ⟨rechStep_blank s l h, ?_⟩
  unfold extractRechDoc
  rw [List.foldl_append, List.foldl_cons, rechStep_blank _ l h, ← List.foldl_append]

/-- Witness for C8: the blank comment line `"      *>   "` inside a
structured block is a no-op on the parser state and removable from a
block. -/
theorem claim8_witness :
    rechStep rechInit "      *>   ".toList = rechInit
    ∧ extractRechDoc (["      *>/**".toList] ++ "      *>   ".toList :: ["      *> tail".toList])
      = extractRechDoc (["      *>/**".toList] ++ ["      *> tail".toList]) :=
  claim8_blank_lines rechInit "      *>   ".toList ["      *>/**".toList]
    ["      *> tail".toList] (by decide)

theorem rechStepTags_comment (s : RechState) (l : List Char) :
    (rechStepTags s l).comment = s.comment := by
  unfold rechStepTags
  split_ifs <;> rfl

theorem rechStepTags_parsing (s : RechState) (l : List Char) :
    (rechStepTags s l).parsingRechDoc = s.parsingRechDoc := by
  unfold rechStepTags
  split_ifs <;> rfl

theorem rechStepTags_extracting_false (s : RechState) (l : List Char)
    (h : s.extractingComment = false) : (rechStepTags s l).extractingComment = false := by
  unfold rechStepTags
  split_ifs <;> simp [h]

theorem rechStepTags_extracting_of_tag (s : RechState) (l : List Char)
    (h : containsTagToken l = true) : (rechStepTags s l).extractingComment = false := by
  unfold rechStepTags
  split_ifs with h1 h2 h3 h4 h5 h6 h7 h8 h9 h10 h11 h12 h13 h14 h15 <;>
    first
    | rfl
    | (exfalso
       simp only [containsTagToken, isTagSubstringLine, Bool.or_eq_true] at h
       simp only [Bool.not_eq_true] at *
       simp_all)

theorem rechStepComment_of_extracting_false (s : RechState) (l : List Char)
    (h : s.extractingComment = false) : rechStepComment s l = s := by
  unfold rechStepComment
  simp [h]

theorem foldl_rechStep_stopped (rest : List (List Char)) :
    ∀ s : RechState,
      (s.parsingRechDoc = false ∨ s.extractingComment = false) →
      (∀ r ∈ rest, jsStartsWith "*>/**".toList (trimChars r) = false) →
      (List.foldl rechStep s rest).comment = s.comment := by
  induction rest with
  | nil =>
    intro s _ _
    rfl
  | cons r rest ih =>
    intro s hdisj hno
    have hr := hno r (List.mem_cons_self r rest)
    have hrest : ∀ x ∈ rest, jsStartsWith "*>/**".toList (trimChars x) = false :=
      fun x hx => hno x (List.mem_cons_of_mem r hx)
    have hstep : (rechStep s r).comment = s.comment
        ∧ ((rechStep s r).parsingRechDoc = false ∨ (rechStep s r).extractingComment = false) := by
      unfold rechStep
      rw [hr]
      simp only [Bool.false_eq_true, if_false]
      by_cases hcl : jsStartsWith "*>*/".toList (trimChars r) = true
      · simp only [hcl, if_true]
        exact ⟨rfl, Or.inl rfl⟩
      · simp only [hcl, Bool.false_eq_true, if_false]
        by_cases hpar : s.parsingRechDoc = true
        · simp only [hpar, if_true]
          have hex : s.extractingComment = false := by
            rcases hdisj with h1 | h1
            · rw [hpar] at h1
              exact absurd h1 (by decide)
            · exact h1
          rw [rechStepComment_of_extracting_false _ _ (rechStepTags_extracting_false s r hex)]
          exact ⟨rechStepTags_comment s r,
            Or.inr (rechStepTags_extracting_false s r hex)⟩
        · simp only [hpar, if_false]
          exact ⟨rfl, hdisj⟩
    rw [List.foldl_cons, ih _ hstep.2 hrest, hstep.1]

/-- C10: substring-based tag detection.  While inside a structured
block (`parsingRechDoc = true`), any non-opener line containing one of
the seven tag tokens ANYWHERE in its text (also mid-prose, and also
when it yields no tag record) irrevocably stops summary accumulation:
the line itself adds nothing to the summary, and as long as no later
line of the block re-opens with `*>/**`, the summary never grows again
for the whole rest of the block. -/
theorem claim10_tag_detection (s : RechState) (l : List Char) (rest : List (List Char))
    (hs : s.parsingRechDoc = true)
    (htag : containsTagToken l = true)
    (hop : jsStartsWith "*>/**".toList (trimChars l) = false)
    (hrest : ∀ r ∈ rest, jsStartsWith "*>/**".toList (trimChars r) = false) :
    ((rechStep s l).parsingRechDoc = false ∨ (rechStep s l).extractingComment = false)
    ∧ (rechStep s l).comment = s.comment
    ∧ (List.foldl rechStep s (l :: rest)).comment = s.comment := by
  have hstep : (rechStep s l).comment = s.comment
      ∧ ((rechStep s l).parsingRechDoc = false ∨ (rechStep s l).extractingComment = false) := by
    unfold rechStep
    rw [hop]
    simp only [Bool.false_eq_true, if_false]
    by_cases hcl : jsStartsWith "*>*/".toList (trimChars l) = true
    · simp only [hcl, if_true]
      exact ⟨rfl, Or.inl rfl⟩
    · simp only [hcl, Bool.false_eq_true, if_false]
      simp only [hs, if_true]
      rw [rechStepComment_of_extracting_false _ _ (rechStepTags_extracting_of_tag s l htag)]
      exact ⟨rechStepTags_comment s l,
        Or.inr (rechStepTags_extracting_of_tag s l htag)⟩
  refine ⟨hstep.2, hstep.1, ?_⟩
  rw [List.foldl_cons, foldl_rechStep_stopped rest _ hstep.2 hrest, hstep.1]

/-- Witness for C10: with accumulation active, the prose line
`"      *> see @param here"` (which yields no tag record) stops the
summary for the rest of the block. -/
theorem claim10_witness :
    ((rechStep ⟨"Intro ".toList, [], [], [], true, true⟩ "      *> see @param here".toList).parsingRechDoc = false
      ∨ (rechStep ⟨"Intro ".toList, [], [], [], true, true⟩ "      *> see @param here".toList).extractingComment = false)
    ∧ (rechStep ⟨"Intro ".toList, [], [], [], true, true⟩ "      *> see @param here".toList).comment
        = ("Intro ".toList : List Char)
    ∧ (List.foldl rechStep ⟨"Intro ".toList, [], [], [], true, true⟩
        ("      *> see @param here".toList :: ["      *> more prose".toList])).comment
        = ("Intro ".toList : List Char) :=
  claim10_tag_detection ⟨"Intro ".toList, [], [], [], true, true⟩
    "      *> see @param here".toList ["      *> more prose".toList]
    rfl (by decide) (by decide) (by decide)

theorem rechStepComment_params (s : RechState) (l : List Char) :
    (rechStepComment s l).params = s.params := by
  unfold rechStepComment
  dsimp only
  split_ifs <;> rfl

theorem rechStepComment_returns (s : RechState) (l : List Char) :
    (rechStepComment s l).returns = s.returns := by
  unfold rechStepComment
  dsimp only
  split_ifs <;> rfl

theorem rechStepComment_throws (s : RechState) (l : List Char) :
    (rechStepComment s l).throws = s.throws := by
  unfold rechStepComment
  dsimp only
  split_ifs <;> rfl

theorem rechStepComment_parsing (s : RechState) (l : List Char) :
    (rechStepComment s l).parsingRechDoc = s.parsingRechDoc := by
  unfold rechStepComment
  dsimp only
  split_ifs <;> rfl

theorem rechStepTags_params (s : RechState) (l : List Char) :
    (rechStepTags s l).params =
      if jsIncludes "@param".toList l then updateDocElement s.params l else s.params := by
  unfold rechStepTags
  split_ifs <;> rfl

theorem rechStepTags_returns (s : RechState) (l : List Char) :
    (rechStepTags s l).returns =
      if jsIncludes "@return".toList l then updateDocElement s.returns l else s.returns := by
  unfold rechStepTags
  split_ifs <;> rfl

theorem rechStepTags_throws (s : RechState) (l : List Char) :
    (rechStepTags s l).throws =
      if jsIncludes "@throws".toList l then updateDocElement s.throws l else s.throws := by
  unfold rechStepTags
  split_ifs <;> rfl

theorem rechStep_agree (s₁ s₂ : RechState) (l : List Char)
    (hp : s₁.parsingRechDoc = s₂.parsingRechDoc)
    (h1 : s₁.params = s₂.params) (h2 : s₁.returns = s₂.returns)
    (h3 : s₁.throws = s₂.throws) :
    (rechStep s₁ l).parsingRechDoc = (rechStep s₂ l).parsingRechDoc
    ∧ (rechStep s₁ l).params = (rechStep s₂ l).params
    ∧ (rechStep s₁ l).returns = (rechStep s₂ l).returns
    ∧ (rechStep s₁ l).throws = (rechStep s₂ l).throws := by
  unfold rechStep
  by_cases hopn : jsStartsWith "*>/**".toList (trimChars l) = true
  · simp only [hopn, if_true]
    exact ⟨trivial, h1, h2, h3⟩
  · simp only [hopn, Bool.false_eq_true, if_false]
    by_cases hcl : jsStartsWith "*>*/".toList (trimChars l) = true
    · simp only [hcl, if_true]
      exact ⟨rfl, h1, h2, h3⟩
    · simp only [hcl, Bool.false_eq_true, if_false]
      by_cases hpar : s₁.parsingRechDoc = true
      · have hpar2 : s₂.parsingRechDoc = true := by rw [← hp]; exact hpar
        simp only [hpar, hpar2, if_true]
        refine ⟨?_, ?_, ?_, ?_⟩
        · rw [rechStepComment_parsing, rechStepComment_parsing, rechStepTags_parsing,
            rechStepTags_parsing, hp]
        · rw [rechStepComment_params, rechStepComment_params, rechStepTags_params,
            rechStepTags_params, h1]
        · rw [rechStepComment_returns, rechStepComment_returns, rechStepTags_returns,
            rechStepTags_returns, h2]
        · rw [rechStepComment_throws, rechStepComment_throws, rechStepTags_throws,
            rechStepTags_throws, h3]
      · have hf1 : s₁.parsingRechDoc = false := by simpa using hpar
        have hf2 : s₂.parsingRechDoc = false := by rw [← hp]; exact hf1
        simp only [hf1, hf2, Bool.false_eq_true, if_false]
        exact ⟨trivial, h1, h2, h3⟩

theorem foldl_rechStep_agree (ls : List (List Char)) :
    ∀ s₁ s₂ : RechState,
      s₁.parsingRechDoc = s₂.parsingRechDoc → s₁.params = s₂.params →
      s₁.returns = s₂.returns → s₁.throws = s₂.throws →
      (List.foldl rechStep s₁ ls).parsingRechDoc = (List.foldl rechStep s₂ ls).parsingRechDoc
      ∧ (List.foldl rechStep s₁ ls).params = (List.foldl rechStep s₂ ls).params
      ∧ (List.foldl rechStep s₁ ls).returns = (List.foldl rechStep s₂ ls).returns
      ∧ (List.foldl rechStep s₁ ls).throws = (List.foldl rechStep s₂ ls).throws := by
  induction ls with
  | nil => exact fun s₁ s₂ hp h1 h2 h3 => ⟨hp, h1, h2, h3⟩
  | cons l ls ih =>
    intro s₁ s₂ hp h1 h2 h3
    have hstep := rechStep_agree s₁ s₂ l hp h1 h2 h3
    simpa only [List.foldl_cons] using
      ih (rechStep s₁ l) (rechStep s₂ l) hstep.1 hstep.2.1 hstep.2.2.1 hstep.2.2.2

theorem rechStep_malformed (s : RechState) (bad : List Char)
    (hexec : execDocElement bad = none)
    (hop : jsStartsWith "*>/**".toList (trimChars bad) = false)
    (hcl : jsStartsWith "*>*/".toList (trimChars bad) = false) :
    (rechStep s bad).parsingRechDoc = s.parsingRechDoc
    ∧ (rechStep s bad).params = s.params
    ∧ (rechStep s bad).returns = s.returns
    ∧ (rechStep s bad).throws = s.throws := by
  have hcreate : createDocElementFromLine bad = none := by
    unfold createDocElementFromLine
    rw [hexec]
  have hupd : ∀ els, updateDocElement els bad = els := by
    intro els
    unfold updateDocElement
    rw [hcreate]
  unfold rechStep
  rw [hop, hcl]
  simp only [Bool.false_eq_true, if_false]
  by_cases hpar : s.parsingRechDoc = true
  · simp only [hpar, if_true]
    refine ⟨?_, ?_, ?_, ?_⟩
    · rw [rechStepComment_parsing, rechStepTags_parsing]
      exact hpar
    · rw [rechStepComment_params, rechStepTags_params]
      split_ifs <;> simp [hupd]
    · rw [rechStepComment_returns, rechStepTags_returns]
      split_ifs <;> simp [hupd]
    · rw [rechStepComment_throws, rechStepTags_throws]
      split_ifs <;> simp [hupd]
  · have hf : s.parsingRechDoc = false := by simpa using hpar
    simp [hf]

theorem takeWhile_append_stop {p : Char → Bool} (xs : List Char) {y : Char} (ys : List Char)
    (hall : ∀ c ∈ xs, p c = true) (hy : p y = false) :
    (xs ++ y :: ys).takeWhile p = xs := by
  induction xs with
  | nil => simp [List.takeWhile_cons, hy]
  | cons x xs ih =>
    have hx : p x = true := hall x (List.mem_cons_self x xs)
    simp [List.takeWhile_cons, hx, ih (fun c hc => hall c (List.mem_cons_of_mem x hc))]

theorem dropWhile_append_stop {p : Char → Bool} (xs : List Char) {y : Char} (ys : List Char)
    (hall : ∀ c ∈ xs, p c = true) (hy : p y = false) :
    (xs ++ y :: ys).dropWhile p = y :: ys := by
  induction xs with
  | nil => simp [List.dropWhile_cons, hy]
  | cons x xs ih =>
    have hx : p x = true := hall x (List.mem_cons_self x xs)
    simp [List.dropWhile_cons, hx, ih (fun c hc => hall c (List.mem_cons_of_mem x hc))]

theorem takeWhile_all {p : Char → Bool} (xs : List Char) (hall : ∀ c ∈ xs, p c = true) :
    xs.takeWhile p = xs := by
  induction xs with
  | nil => rfl
  | cons x xs ih =>
    have hx : p x = true := hall x (List.mem_cons_self x xs)
    simp [List.takeWhile_cons, hx, ih (fun c hc => hall c (List.mem_cons_of_mem x hc))]

theorem matchAfterTag_desc (t name desc : List Char) (hname : name ≠ [])
    (hnc : ∀ c ∈ name, isNameChar c = true) (hdesc : ∀ c ∈ desc, c ≠ '\n') :
    matchAfterTag t (' ' :: (name ++ ' ' :: desc)) = some ⟨t, name, desc⟩ := by
  rw [matchAfterTag]
  rw [if_pos (by decide : isWsChar ' ' = true)]
  have ht : (name ++ ' ' :: desc).takeWhile isNameChar = name :=
    takeWhile_append_stop name desc hnc (by decide)
  have hd : (name ++ ' ' :: desc).drop name.length = ' ' :: desc := List.drop_left name _
  dsimp only
  rw [ht, if_neg hname, hd]
  dsimp only
  rw [if_pos (by decide : isWsChar ' ' = true)]
  have hdd : desc.takeWhile (fun c3 => decide (c3 ≠ '\n')) = desc :=
    takeWhile_all desc (fun c hc => decide_eq_true (hdesc c hc))
  rw [hdd]

theorem matchAfterTag_noDesc (t name : List Char) (hname : name ≠ [])
    (hnc : ∀ c ∈ name, isNameChar c = true) :
    matchAfterTag t (' ' :: name) = some ⟨t, name, []⟩ := by
  rw [matchAfterTag]
  rw [if_pos (by decide : isWsChar ' ' = true)]
  have ht : name.takeWhile isNameChar = name := takeWhile_all name hnc
  dsimp only
  rw [ht, if_neg hname, List.drop_length]
  rfl

theorem startsWith_tag_mismatch (a b X : List Char) (ca cb : Char)
    (ha : ∀ t : List Char, (a ++ t)[1]? = some ca)
    (hb : ((b ++ X) : List Char)[1]? = some cb)
    (hne : ca ≠ cb) : jsStartsWith a (b ++ X) = false := by
  unfold jsStartsWith
  rw [decide_eq_false_iff_not]
  rintro ⟨t, ht⟩
  have h2 : (some ca : Option Char) = some cb := by
    rw [← ha t, ← hb, ht]
  exact absurd (Option.some.inj h2) hne

theorem find?_tag_param (X : List Char) :
    tagAlternatives.find? (fun t => jsStartsWith t ("@param".toList ++ X)) =
      some "@param".toList := by
  have h1 : jsStartsWith ['@', 'p', 'a', 'r', 'a', 'm']
      ('@' :: 'p' :: 'a' :: 'r' :: 'a' :: 'm' :: X) = true := by
    unfold jsStartsWith
    rw [decide_eq_true_eq]
    exact ⟨X, rfl⟩
  simp [tagAlternatives, List.find?, h1]

theorem find?_tag_return (X : List Char) :
    tagAlternatives.find? (fun t => jsStartsWith t ("@return".toList ++ X)) =
      some "@return".toList := by
  have h1 : jsStartsWith ['@', 'p', 'a', 'r', 'a', 'm']
      ('@' :: 'r' :: 'e' :: 't' :: 'u' :: 'r' :: 'n' :: X) = false :=
    startsWith_tag_mismatch "@param".toList "@return".toList X 'p' 'r'
      (fun t => rfl) rfl (by decide)
  have h2 : jsStartsWith ['@', 'r', 'e', 't', 'u', 'r', 'n']
      ('@' :: 'r' :: 'e' :: 't' :: 'u' :: 'r' :: 'n' :: X) = true := by
    unfold jsStartsWith
    rw [decide_eq_true_eq]
    exact ⟨X, rfl⟩
  simp [tagAlternatives, List.find?, h1, h2]

theorem find?_tag_throws (X : List Char) :
    tagAlternatives.find? (fun t => jsStartsWith t ("@throws".toList ++ X)) =
      some "@throws".toList := by
  have h1 : jsStartsWith ['@', 'p', 'a', 'r', 'a', 'm']
      ('@' :: 't' :: 'h' :: 'r' :: 'o' :: 'w' :: 's' :: X) = false :=
    startsWith_tag_mismatch "@param".toList "@throws".toList X 'p' 't'
      (fun t => rfl) rfl (by decide)
  have h2 : jsStartsWith ['@', 'r', 'e', 't', 'u', 'r', 'n']
      ('@' :: 't' :: 'h' :: 'r' :: 'o' :: 'w' :: 's' :: X) = false :=
    startsWith_tag_mismatch "@return".toList "@throws".toList X 'r' 't'
      (fun t => rfl) rfl (by decide)
  have h3 : jsStartsWith ['@', 't', 'h', 'r', 'o', 'w', 's']
      ('@' :: 't' :: 'h' :: 'r' :: 'o' :: 'w' :: 's' :: X) = true := by
    unfold jsStartsWith
    rw [decide_eq_true_eq]
    exact ⟨X, rfl⟩
  simp [tagAlternatives, List.find?, h1, h2, h3]

theorem matchTagAt_template (tag X : List Char) (htag : tag ∈ tagAlternatives) :
    matchTagAt ("      *> ".toList ++ (tag ++ X)) = matchAfterTag tag X := by
  have h1 : ("      *> ".toList ++ (tag ++ X)).takeWhile isWsChar = "      ".toList := by
    rw [show ("      *> ".toList ++ (tag ++ X) : List Char)
        = "      ".toList ++ '*' :: ('>' :: (' ' :: (tag ++ X))) from rfl]
    exact takeWhile_append_stop _ _ (by decide) (by decide)
  have h2 : ("      *> ".toList ++ (tag ++ X)).dropWhile isWsChar
      = '*' :: ('>' :: (' ' :: (tag ++ X))) := by
    rw [show ("      *> ".toList ++ (tag ++ X) : List Char)
        = "      ".toList ++ '*' :: ('>' :: (' ' :: (tag ++ X))) from rfl]
    exact dropWhile_append_stop _ _ (by decide) (by decide)
  have h3 : jsStartsWith "*>".toList ('*' :: ('>' :: (' ' :: (tag ++ X)))) = true := by
    unfold jsStartsWith
    rw [decide_eq_true_eq]
    exact ⟨' ' :: (tag ++ X), rfl⟩
  unfold matchTagAt
  simp only [h1, h2, h3, if_true, List.drop_succ_cons, List.drop_zero]
  rw [if_neg (by decide : ¬(("      ".toList : List Char) = []))]
  simp only [tagAlternatives, List.mem_cons, List.not_mem_nil, or_false] at htag
  rcases htag with rfl | rfl | rfl
  · have h4 : (' ' :: ("@param".toList ++ X)).takeWhile isWsChar = [' '] := by
      rw [show (' ' :: ("@param".toList ++ X) : List Char)
          = [' '] ++ '@' :: ("param".toList ++ X) from rfl]
      exact takeWhile_append_stop _ _ (by decide) (by decide)
    have h5 : (' ' :: ("@param".toList ++ X)).dropWhile isWsChar = "@param".toList ++ X := by
      rw [show (' ' :: ("@param".toList ++ X) : List Char)
          = [' '] ++ '@' :: ("param".toList ++ X) from rfl]
      exact dropWhile_append_stop _ _ (by decide) (by decide)
    rw [h4, if_neg (by decide : ¬(([' '] : List Char) = [])), h5, find?_tag_param X]
    show matchAfterTag "@param".toList (("@param".toList ++ X).drop "@param".toList.length)
      = matchAfterTag "@param".toList X
    rw [List.drop_left]
  · have h4 : (' ' :: ("@return".toList ++ X)).takeWhile isWsChar = [' '] := by
      rw [show (' ' :: ("@return".toList ++ X) : List Char)
          = [' '] ++ '@' :: ("return".toList ++ X) from rfl]
      exact takeWhile_append_stop _ _ (by decide) (by decide)
    have h5 : (' ' :: ("@return".toList ++ X)).dropWhile isWsChar = "@return".toList ++ X := by
      rw [show (' ' :: ("@return".toList ++ X) : List Char)
          = [' '] ++ '@' :: ("return".toList ++ X) from rfl]
      exact dropWhile_append_stop _ _ (by decide) (by decide)
    rw [h4, if_neg (by decide : ¬(([' '] : List Char) = [])), h5, find?_tag_return X]
    show matchAfterTag "@return".toList (("@return".toList ++ X).drop "@return".toList.length)
      = matchAfterTag "@return".toList X
    rw [List.drop_left]
  · have h4 : (' ' :: ("@throws".toList ++ X)).takeWhile isWsChar = [' '] := by
      rw [show (' ' :: ("@throws".toList ++ X) : List Char)
          = [' '] ++ '@' :: ("throws".toList ++ X) from rfl]
      exact takeWhile_append_stop _ _ (by decide) (by decide)
    have h5 : (' ' :: ("@throws".toList ++ X)).dropWhile isWsChar = "@throws".toList ++ X := by
      rw [show (' ' :: ("@throws".toList ++ X) : List Char)
          = [' '] ++ '@' :: ("throws".toList ++ X) from rfl]
      exact dropWhile_append_stop _ _ (by decide) (by decide)
    rw [h4, if_neg (by decide : ¬(([' '] : List Char) = [])), h5, find?_tag_throws X]
    show matchAfterTag "@throws".toList (("@throws".toList ++ X).drop "@throws".toList.length)
      = matchAfterTag "@throws".toList X
    rw [List.drop_left]

theorem execDocElement_template (tag X : List Char) (m : TagMatch)
    (htag : tag ∈ tagAlternatives) (hm : matchAfterTag tag X = some m) :
    execDocElement ("      *> ".toList ++ (tag ++ X)) = some m := by
  have heq : matchTagAt ("      *> ".toList ++ (tag ++ X)) = matchAfterTag tag X :=
    matchTagAt_template tag X htag
  have hmt : matchTagAt (' ' :: ("     *> ".toList ++ (tag ++ X))) = some m := by
    rw [show (' ' :: ("     *> ".toList ++ (tag ++ X)) : List Char)
        = "      *> ".toList ++ (tag ++ X) from rfl, heq, hm]
  rw [show ("      *> ".toList ++ (tag ++ X) : List Char)
      = ' ' :: ("     *> ".toList ++ (tag ++ X)) from rfl]
  rw [execDocElement, hmt]

/-- C9: malformed-tag recovery in the structured dialect.
(1) A line on which the doc-tag regex finds no match contributes no
record: `updateDocElement` returns its list unchanged (and, the parser
being a total function, no error is raised).
(2) A tag line (one containing `@param`, `@return` or `@throws`) on
which the regex finds no match — e.g. one lacking a name token — can be
deleted from anywhere inside a block without changing any of the three
extracted tag lists: only that single record is dropped, the rest of
the block parses normally.
(3) A well-formed tag line with a name token and non-empty trailing
text yields the record (name, trailing text).
(4) A well-formed tag line with a name token and nothing after it
yields the record (name, "").  -/
theorem claim9_malformed_tags :
    (∀ (l : List Char) (els : List DocElement),
      execDocElement l = none → updateDocElement els l = els)
    ∧ (∀ (bad : List Char) (pre post : List (List Char)),
        isTagSubstringLine bad = true →
        execDocElement bad = none →
        jsStartsWith "*>/**".toList (trimChars bad) = false →
        jsStartsWith "*>*/".toList (trimChars bad) = false →
        ((extractRechDoc (pre ++ bad :: post)).params = (extractRechDoc (pre ++ post)).params
          ∧ (extractRechDoc (pre ++ bad :: post)).returns = (extractRechDoc (pre ++ post)).returns
          ∧ (extractRechDoc (pre ++ bad :: post)).throws = (extractRechDoc (pre ++ post)).throws))
    ∧ (∀ tag name desc : List Char, tag ∈ tagAlternatives →
        name ≠ [] → (∀ c ∈ name, isNameChar c = true) →
        desc ≠ [] → (∀ c ∈ desc, c ≠ '\n') →
        createDocElementFromLine
            ("      *> ".toList ++ (tag ++ (' ' :: (name ++ ' ' :: desc))))
          = some ⟨name, desc⟩)
    ∧ (∀ tag name : List Char, tag ∈ tagAlternatives →
        name ≠ [] → (∀ c ∈ name, isNameChar c = true) →
        createDocElementFromLine ("      *> ".toList ++ (tag ++ (' ' :: name)))
          = some ⟨name, []⟩) := by
  refine ⟨?_, ?_, ?_, ?_⟩
  · intro l els hexec
    unfold updateDocElement createDocElementFromLine
    rw [hexec]
  · intro bad pre post _ hexec hop hcl
    have hmal := rechStep_malformed (List.foldl rechStep rechInit pre) bad hexec hop hcl
    unfold extractRechDoc
    simp only [List.foldl_append, List.foldl_cons]
    have hagree := foldl_rechStep_agree post
      (rechStep (List.foldl rechStep rechInit pre) bad) (List.foldl rechStep rechInit pre)
      hmal.1 hmal.2.1 hmal.2.2.1 hmal.2.2.2
    exact ⟨hagree.2.1, hagree.2.2.1, hagree.2.2.2⟩
  · intro tag name desc htag hname hnc hdne hdesc
    have hexec := execDocElement_template tag (' ' :: (name ++ ' ' :: desc)) ⟨tag, name, desc⟩
      htag (matchAfterTag_desc tag name desc hname hnc hdesc)
    unfold createDocElementFromLine
    rw [hexec]
    show (if desc ≠ [] then some (⟨name, desc⟩ : DocElement)
          else if name ≠ [] then some ⟨name, []⟩ else none) = some ⟨name, desc⟩
    rw [if_pos hdne]
  · intro tag name htag hname hnc
    have hexec := execDocElement_template tag (' ' :: name) ⟨tag, name, []⟩
      htag (matchAfterTag_noDesc tag name hname hnc)
    unfold createDocElementFromLine
    rw [hexec]
    show (if ([] : List Char) ≠ [] then some (⟨name, []⟩ : DocElement)
          else if name ≠ [] then some ⟨name, []⟩ else none) = some ⟨name, []⟩
    rw [if_neg (by simp), if_pos hname]

/-- Witness for C9: the nameless tag line `"      *> @param"` yields no
record and is droppable from a block without affecting the tag lists,
while well-formed `@param`/`@return` lines yield their records. -/
theorem claim9_witness :
    updateDocElement [] "      *> @param".toList = []
    ∧ ((extractRechDoc (["      *>/**".toList]
          ++ "      *> @param".toList :: ["      *> @return ret-val ok".toList])).params
        = (extractRechDoc (["      *>/**".toList]
          ++ ["      *> @return ret-val ok".toList])).params
      ∧ (extractRechDoc (["      *>/**".toList]
          ++ "      *> @param".toList :: ["      *> @return ret-val ok".toList])).returns
        = (extractRechDoc (["      *>/**".toList]
          ++ ["      *> @return ret-val ok".toList])).returns
      ∧ (extractRechDoc (["      *>/**".toList]
          ++ "      *> @param".toList :: ["      *> @return ret-val ok".toList])).throws
        = (extractRechDoc (["      *>/**".toList]
          ++ ["      *> @return ret-val ok".toList])).throws)
    ∧ createDocElementFromLine
        ("      *> ".toList ++ ("@param".toList ++ (' ' :: ("my-var".toList ++ ' ' :: "the desc".toList))))
      = some ⟨"my-var".toList, "the desc".toList⟩
    ∧ createDocElementFromLine
        ("      *> ".toList ++ ("@return".toList ++ (' ' :: "ret-val".toList)))
      = some ⟨"ret-val".toList, []⟩ :=
  ⟨claim9_malformed_tags.1 "      *> @param".toList [] (by rfl),
   claim9_malformed_tags.2.1 "      *> @param".toList ["      *>/**".toList]
     ["      *> @return ret-val ok".toList] (by rfl) (by rfl) (by rfl) (by rfl),
   claim9_malformed_tags.2.2.1 "@param".toList "my-var".toList "the desc".toList
     (by decide) (by decide) (by decide) (by decide) (by decide),
   claim9_malformed_tags.2.2.2 "@return".toList "ret-val".toList
     (by decide) (by decide) (by decide)⟩
